import Mathlib

/-!
Verification of the file collection / filtering / aggregation core of
`aidigest.py` against its specification.

Python strings are modelled as `List Char`; the `None`-or-exception
results of effectful helpers (MIME sniffing, file reads, file-system
persistence) are modelled as `Option` values or explicit parameters, so
that every function of the source becomes a total executable Lean
function.
-/

namespace Aidigest

/-- A Python string, modelled as its list of characters. -/
abbrev Str := List Char

/-- The backtick character. -/
def btk : Char := "`".data.headI

/-- `escape_triple_backticks` (aidigest.py lines 59-60):
`content.replace('\x60\x60\x60', '\\\x60\\\x60\\\x60')`, i.e. the leftmost,
non-overlapping, sequential replacement of every occurrence of a triple
backtick by a backslash-escaped triple backtick, written as a direct
scanner. -/
def escape_triple_backticks : Str → Str
  | a :: b :: c :: rest =>
    if a = btk ∧ b = btk ∧ c = btk then
      "\\`\\`\\`".data ++ escape_triple_backticks rest
    else
      a :: escape_triple_backticks (b :: c :: rest)
  | s => s

/-- The inverse replacement used to state the round-trip property of the
spec: `content.replace('\\\x60\\\x60\\\x60', '\x60\x60\x60')`, replacing each
escaped triple-backtick sequence back by a triple backtick. -/
def unescape_triple_backticks : Str → Str
  | a :: b :: c :: d :: e :: f :: rest =>
    if a = '\\' ∧ b = btk ∧ c = '\\' ∧ d = btk ∧ e = '\\' ∧ f = btk then
      "```".data ++ unescape_triple_backticks rest
    else
      a :: unescape_triple_backticks (b :: c :: d :: e :: f :: rest)
  | s => s

theorem unescape_cons_of_ne (a : Char) (y : Str) (ha : a ≠ '\\') :
    unescape_triple_backticks (a :: y) = a :: unescape_triple_backticks y := by
  rcases y with _ | ⟨b, _ | ⟨c, _ | ⟨d, _ | ⟨e, _ | ⟨f, r⟩⟩⟩⟩⟩ <;>
    simp [unescape_triple_backticks, ha]

/-- Escaping followed by un-escaping recovers any backslash-free content. -/
theorem unescape_escape (l : Str) (h : '\\' ∉ l) :
    unescape_triple_backticks (escape_triple_backticks l) = l := by
  induction l using escape_triple_backticks.induct with
  | case1 a b c rest hm ih =>
    obtain ⟨rfl, rfl, rfl⟩ := hm
    have hrest : '\\' ∉ rest := fun hc => h (by simp [hc])
    have hdata : ("\\`\\`\\`".data : Str) = '\\' :: btk :: '\\' :: btk :: '\\' :: btk :: [] := by
      decide
    have hdata3 : ("```".data : Str) = btk :: btk :: btk :: [] := by decide
    rw [escape_triple_backticks, if_pos ⟨rfl, rfl, rfl⟩, hdata]
    simp only [List.cons_append, List.nil_append]
    rw [unescape_triple_backticks, if_pos ⟨rfl, rfl, rfl, rfl, rfl, rfl⟩, ih hrest, hdata3]
    simp
  | case2 a b c rest hm ih =>
    rw [escape_triple_backticks, if_neg hm]
    have ha : a ≠ '\\' := fun hc => h (by simp [hc])
    have hrest : '\\' ∉ b :: c :: rest := fun hc => h (by simp at hc ⊢; tauto)
    rw [unescape_cons_of_ne a _ ha, ih hrest]
  | case3 s hs =>
    rcases s with _ | ⟨a, _ | ⟨b, _ | ⟨c, t⟩⟩⟩
    · simp [escape_triple_backticks, unescape_triple_backticks]
    · simp [escape_triple_backticks, unescape_triple_backticks]
    · simp [escape_triple_backticks, unescape_triple_backticks]
    · exact (hs a b c t rfl).elim

/-- C3 counterexample: `escape_triple_backticks` is not injective on all
contents.  The distinct strings composed of a triple backtick and of an
already-escaped triple backtick are mapped to the same output, so escaping
followed by un-escaping cannot recover every original content. -/
theorem escape_triple_backticks_collision :
    ("```".data : Str) ≠ "\\`\\`\\`".data ∧
    escape_triple_backticks "```".data = escape_triple_backticks "\\`\\`\\`".data := by
  exact ⟨by decide, by decide⟩

/-- C3 (amended): on backslash-free contents, `escape_triple_backticks` is
injective, and escaping followed by un-escaping of triple-backtick runs
recovers the original content losslessly. -/
theorem escape_triple_backticks_lossless_on_backslash_free (s t : Str)
    (hs : '\\' ∉ s) (ht : '\\' ∉ t) :
    unescape_triple_backticks (escape_triple_backticks s) = s ∧
    (escape_triple_backticks s = escape_triple_backticks t → s = t) := by
  refine ⟨unescape_escape s hs, fun he => ?_⟩
  calc s = unescape_triple_backticks (escape_triple_backticks s) :=
        (unescape_escape s hs).symm
    _ = unescape_triple_backticks (escape_triple_backticks t) := by rw [he]
    _ = t := unescape_escape t ht

/-- Witness for the amended C3 theorem at concrete backslash-free inputs. -/
theorem escape_triple_backticks_lossless_on_backslash_free_witness :
    unescape_triple_backticks (escape_triple_backticks "a```b".data) = "a```b".data ∧
    (escape_triple_backticks "a```b".data = escape_triple_backticks "x y".data →
      "a```b".data = "x y".data) :=
  escape_triple_backticks_lossless_on_backslash_free "a```b".data "x y".data
    (by decide) (by decide)

/-! ### Whitespace compaction (`remove_whitespace`, aidigest.py lines 53-57) -/

/-- Python's `\s` character class (ASCII whitespace). -/
def isPySpace (c : Char) : Bool :=
  c = ' ' || c = '\t' || c = '\n' || c = '\r' || c = '\x0b' || c = '\x0c'

/-- The character class `[\t ]` of the first substitution. -/
def isBlankChar (c : Char) : Bool := c = '\t' || c = ' '

/-- `re.sub(r'[\t ]+', ' ', content)`: every maximal run of tabs and spaces is
replaced by a single space (the space is emitted at the end of each run, which
produces the same output as the regex substitution). -/
def collapseBlanks : Str → Str
  | [] => []
  | [c] => if isBlankChar c then [' '] else [c]
  | a :: b :: t =>
    if isBlankChar a then
      if isBlankChar b then collapseBlanks (b :: t)
      else ' ' :: collapseBlanks (b :: t)
    else a :: collapseBlanks (b :: t)

/-- Helper for the second substitution: if the leading whitespace run of `cs`
contains a newline, return the remainder of `cs` just after the *last* newline
of that run (the extent consumed by the greedy `\n\s*\n` match); otherwise
`none`. -/
def wsGap : Str → Option Str
  | [] => none
  | c :: cs =>
    if c = '\n' then some ((wsGap cs).getD cs)
    else if isPySpace c then wsGap cs
    else none

theorem wsGap_length : ∀ cs r, wsGap cs = some r → r.length < cs.length := by
  intro cs
  induction cs with
  | nil => intro r h; simp [wsGap] at h
  | cons c cs ih =>
    intro r h
    by_cases hc : c = '\n'
    · simp only [wsGap, if_pos hc] at h
      cases hg : wsGap cs with
      | none => simp [hg] at h; subst h; simp
      | some r' =>
        simp [hg] at h
        subst h
        exact Nat.lt_succ_of_lt (ih r' hg)
    · by_cases hs : isPySpace c
      · simp only [wsGap, if_neg hc, if_pos hs] at h
        exact Nat.lt_succ_of_lt (ih r h)
      · simp [wsGap, hc, hs] at h

/-- `re.sub(r'\n\s*\n', '\n\n', content)`: the regex scanner matches at a
newline whose following whitespace run contains another newline; the greedy
match extends to the last newline of that run and is replaced by exactly two
newlines, after which scanning resumes past the match. -/
def collapseNewlines : Str → Str
  | [] => []
  | c :: cs =>
    if c = '\n' then
      match h : wsGap cs with
      | some r => '\n' :: '\n' :: collapseNewlines r
      | none => '\n' :: collapseNewlines cs
    else c :: collapseNewlines cs
termination_by s => s.length
decreasing_by
  · exact Nat.lt_succ_of_lt (wsGap_length _ _ h)
  · simp
  · simp

/-- Python `str.strip()`: remove leading and trailing whitespace. -/
def stripPy (s : Str) : Str :=
  ((s.dropWhile isPySpace).reverse.dropWhile isPySpace).reverse

/-- `remove_whitespace` (aidigest.py lines 53-57): collapse tab/space runs,
collapse blank-line runs, then strip the ends. -/
def remove_whitespace (content : Str) : Str :=
  stripPy (collapseNewlines (collapseBlanks content))

/-! ### Idempotence of `remove_whitespace` -/

/-- `w` occurs as a contiguous segment of `l`. -/
def IsSeg (w l : Str) : Prop := ∃ x y, l = x ++ w ++ y

theorem IsSeg.trans {u v w : Str} (h1 : IsSeg u v) (h2 : IsSeg v w) : IsSeg u w := by
  obtain ⟨x, y, rfl⟩ := h1
  obtain ⟨x', y', rfl⟩ := h2
  exact ⟨x' ++ x, y ++ y', by simp⟩

theorem IsSeg.consRight {w : Str} {c : Char} {l : Str} (h : IsSeg w l) : IsSeg w (c :: l) := by
  obtain ⟨x, y, rfl⟩ := h
  exact ⟨c :: x, y, rfl⟩

theorem IsSeg.mem {w l : Str} {a : Char} (h : IsSeg w l) (ha : a ∈ w) : a ∈ l := by
  obtain ⟨x, y, rfl⟩ := h
  simp [ha]

theorem isSeg_cons {w : Str} {c : Char} {l : Str} (h : IsSeg w (c :: l)) :
    (∃ y, c :: l = w ++ y) ∨ IsSeg w l := by
  obtain ⟨x, y, hx⟩ := h
  cases x with
  | nil => exact Or.inl ⟨y, by simpa using hx⟩
  | cons a x' =>
    simp only [List.cons_append, List.cons.injEq] at hx
    exact Or.inr ⟨x', y, hx.2⟩

/-- `l` contains two newlines separated by a non-empty run of whitespace:
exactly the situation in which `re.sub(r'\n\s*\n', '\n\n')` is not the
identity. -/
def HasGap (l : Str) : Prop :=
  ∃ w, w ≠ [] ∧ (∀ c ∈ w, isPySpace c = true) ∧ IsSeg ('\n' :: w ++ ['\n']) l

theorem hasGap_cons_right {c : Char} {l : Str} (h : HasGap l) : HasGap (c :: l) := by
  obtain ⟨w, hw0, hws, hseg⟩ := h
  exact ⟨w, hw0, hws, hseg.consRight⟩

theorem HasGap.mono {l m : Str} (h : HasGap l) (hlm : IsSeg l m) : HasGap m := by
  obtain ⟨w, hw0, hws, hseg⟩ := h
  exact ⟨w, hw0, hws, hseg.trans hlm⟩

theorem hasGap_cons {c : Char} {X : Str} (h : HasGap (c :: X)) :
    (∃ w y, w ≠ [] ∧ (∀ a ∈ w, isPySpace a = true) ∧ c = '\n' ∧ X = w ++ '\n' :: y) ∨
      HasGap X := by
  obtain ⟨w, hw0, hws, hseg⟩ := h
  rcases isSeg_cons hseg with ⟨y, hy⟩ | hseg'
  · left
    have hy' : c :: X = '\n' :: (w ++ '\n' :: y) := by
      simpa [List.append_assoc] using hy
    exact ⟨w, y, hw0, hws, (List.cons.injEq .. ▸ hy').1, (List.cons.injEq .. ▸ hy').2⟩
  · exact Or.inr ⟨w, hw0, hws, hseg'⟩

theorem wsGap_decomp : ∀ cs r, wsGap cs = some r →
    ∃ w, (∀ c ∈ w, isPySpace c = true) ∧ cs = w ++ '\n' :: r := by
  intro cs
  induction cs with
  | nil => intro r h; simp [wsGap] at h
  | cons c cs ih =>
    intro r h
    by_cases hc : c = '\n'
    · subst hc
      cases hg : wsGap cs with
      | none =>
        simp [wsGap, hg] at h
        exact ⟨[], by simp, by simp [h]⟩
      | some r' =>
        simp [wsGap, hg] at h
        obtain ⟨w, hw, hcs⟩ := ih r' hg
        refine ⟨'\n' :: w, ?_, by simp [hcs, h]⟩
        intro x hx
        rcases List.mem_cons.mp hx with rfl | hx'
        · decide
        · exact hw x hx'
    · by_cases hs : isPySpace c
      · simp only [wsGap, if_neg hc, if_pos hs] at h
        obtain ⟨w, hw, hcs⟩ := ih r h
        refine ⟨c :: w, ?_, by simp [hcs]⟩
        intro x hx
        rcases List.mem_cons.mp hx with rfl | hx'
        · exact hs
        · exact hw x hx'
      · simp [wsGap, hc, hs] at h

theorem wsGap_after : ∀ cs r, wsGap cs = some r → wsGap r = none := by
  intro cs
  induction cs with
  | nil => intro r h; simp [wsGap] at h
  | cons c cs ih =>
    intro r h
    by_cases hc : c = '\n'
    · subst hc
      cases hg : wsGap cs with
      | none => simp [wsGap, hg] at h; rw [← h]; exact hg
      | some r' => simp [wsGap, hg] at h; exact h ▸ ih r' hg
    · by_cases hs : isPySpace c
      · simp only [wsGap, if_neg hc, if_pos hs] at h
        exact ih r h
      · simp [wsGap, hc, hs] at h

theorem wsGap_none_no_nl : ∀ cs, wsGap cs = none → '\n' ∉ cs.takeWhile isPySpace := by
  intro cs
  induction cs with
  | nil => intro _; simp
  | cons c cs ih =>
    intro h
    by_cases hc : c = '\n'
    · subst hc; simp [wsGap] at h
    · by_cases hs : isPySpace c
      · simp only [wsGap, if_neg hc, if_pos hs] at h
        rw [List.takeWhile_cons_of_pos hs]
        intro hm
        rcases List.mem_cons.mp hm with h1 | h2
        · exact hc h1.symm
        · exact ih h h2
      · rw [List.takeWhile_cons_of_neg (by simpa using hs)]
        simp

theorem collapseNewlines_cons_nl_some {cs r : Str} (h : wsGap cs = some r) :
    collapseNewlines ('\n' :: cs) = '\n' :: '\n' :: collapseNewlines r := by
  rw [collapseNewlines, if_pos (rfl : ('\n' : Char) = '\n')]
  split
  · next r' heq => rw [heq] at h; cases h; rfl
  · next heq => rw [heq] at h; cases h

theorem collapseNewlines_cons_nl_none {cs : Str} (h : wsGap cs = none) :
    collapseNewlines ('\n' :: cs) = '\n' :: collapseNewlines cs := by
  rw [collapseNewlines, if_pos (rfl : ('\n' : Char) = '\n')]
  split
  · next r' heq => rw [heq] at h; cases h
  · next heq => rfl

theorem collapseNewlines_cons_ne {c : Char} {cs : Str} (h : ¬ c = '\n') :
    collapseNewlines (c :: cs) = c :: collapseNewlines cs := by
  rw [collapseNewlines]
  simp [h]

theorem collapseNewlines_nil : collapseNewlines [] = [] := by
  rw [collapseNewlines]

theorem collapseNewlines_head (l : Str) : (collapseNewlines l).head? = l.head? := by
  cases l with
  | nil => rw [collapseNewlines_nil]
  | cons c cs =>
    by_cases hc : c = '\n'
    · subst hc
      cases hg : wsGap cs with
      | some r => rw [collapseNewlines_cons_nl_some hg]; rfl
      | none => rw [collapseNewlines_cons_nl_none hg]; rfl
    · rw [collapseNewlines_cons_ne hc]; rfl

theorem collapseNewlines_append_no_nl (W z : Str) (hW : ∀ c ∈ W, ¬ c = '\n') :
    collapseNewlines (W ++ z) = W ++ collapseNewlines z := by
  induction W with
  | nil => simp
  | cons c W ih =>
    have hc : ¬ c = '\n' := hW c (by simp)
    rw [List.cons_append, collapseNewlines_cons_ne hc,
      ih (fun a ha => hW a (by simp [ha]))]
    simp

theorem takeWhile_append_of_all {p : Char → Bool} (W z : Str)
    (hW : ∀ c ∈ W, p c = true) :
    (W ++ z).takeWhile p = W ++ z.takeWhile p := by
  induction W with
  | nil => simp
  | cons c W ih =>
    rw [List.cons_append, List.takeWhile_cons_of_pos (hW c (by simp)),
      ih (fun a ha => hW a (by simp [ha]))]
    simp

theorem nl_mem_takeWhile {w t l : Str} (hw : ∀ c ∈ w, isPySpace c = true)
    (h : l = w ++ '\n' :: t) : '\n' ∈ l.takeWhile isPySpace := by
  subst h
  induction w with
  | nil => rw [List.nil_append, List.takeWhile_cons_of_pos (by decide)]; simp
  | cons c w ih =>
    rw [List.cons_append, List.takeWhile_cons_of_pos (hw c (by simp))]
    exact List.mem_cons_of_mem _ (ih (fun a ha => hw a (by simp [ha])))

theorem mem_of_mem_takeWhile {p : Char → Bool} :
    ∀ (l : Str) {c : Char}, c ∈ l.takeWhile p → p c = true := by
  intro l
  induction l with
  | nil => intro c h; simp at h
  | cons a t ih =>
    intro c h
    by_cases ha : p a
    · rw [List.takeWhile_cons_of_pos ha] at h
      rcases List.mem_cons.mp h with rfl | h'
      · exact ha
      · exact ih h'
    · rw [List.takeWhile_cons_of_neg ha] at h
      simp at h

theorem head_dropWhile_false {p : Char → Bool} :
    ∀ (l : Str) {c : Char}, (l.dropWhile p).head? = some c → p c = false := by
  intro l
  induction l with
  | nil => intro c h; simp at h
  | cons a t ih =>
    intro c h
    by_cases ha : p a
    · rw [List.dropWhile_cons_of_pos ha] at h; exact ih h
    · rw [List.dropWhile_cons_of_neg ha] at h
      simp at h
      rw [← h]
      simpa using ha

theorem no_nl_takeWhile_collapse (x : Str) (h : wsGap x = none) :
    '\n' ∉ (collapseNewlines x).takeWhile isPySpace := by
  have hW0 : '\n' ∉ x.takeWhile isPySpace := wsGap_none_no_nl x h
  have hWws : ∀ c ∈ x.takeWhile isPySpace, isPySpace c = true :=
    fun c hc => mem_of_mem_takeWhile x hc
  have hWnl : ∀ c ∈ x.takeWhile isPySpace, ¬ c = '\n' :=
    fun c hc he => hW0 (he ▸ hc)
  have hx : x = x.takeWhile isPySpace ++ x.dropWhile isPySpace :=
    (List.takeWhile_append_dropWhile _ _).symm
  have hrest : (collapseNewlines (x.dropWhile isPySpace)).takeWhile isPySpace = [] := by
    cases hd : x.dropWhile isPySpace with
    | nil => rw [collapseNewlines_nil]; rfl
    | cons c cs =>
      have hc : isPySpace c = false := by
        apply head_dropWhile_false x
        rw [hd]; rfl
      have hh : (collapseNewlines (c :: cs)).head? = some c := by
        rw [collapseNewlines_head]; rfl
      cases hcl : collapseNewlines (c :: cs) with
      | nil => rfl
      | cons d ds =>
        rw [hcl] at hh
        simp at hh
        rw [List.takeWhile_cons_of_neg (by rw [hh]; simp [hc])]
  rw [show collapseNewlines x =
      x.takeWhile isPySpace ++ collapseNewlines (x.dropWhile isPySpace) by
    conv in collapseNewlines x => rw [hx]
    exact collapseNewlines_append_no_nl _ _ hWnl]
  rw [takeWhile_append_of_all _ _ hWws, hrest]
  intro hm
  rcases List.mem_append.mp hm with h1 | h2
  · exact hW0 h1
  · simp at h2

theorem no_gap_head_collapse {x w t : Str} (hx : wsGap x = none)
    (hw : ∀ c ∈ w, isPySpace c = true) :
    collapseNewlines x ≠ w ++ '\n' :: t :=
  fun he => no_nl_takeWhile_collapse x hx (nl_mem_takeWhile hw he)

/-- The output of the blank-line substitution never contains two newlines
separated by a non-empty whitespace run. -/
theorem collapseNewlines_no_gap : ∀ l, ¬ HasGap (collapseNewlines l) := by
  intro l
  induction l using collapseNewlines.induct with
  | case1 =>
    rw [collapseNewlines_nil]
    rintro ⟨w, hw0, hws, x, y, hxy⟩
    simp at hxy
  | case2 cs r hg ih =>
    rw [collapseNewlines_cons_nl_some hg]
    intro hgap
    have hr : wsGap r = none := wsGap_after cs r hg
    rcases hasGap_cons hgap with ⟨w, y, hw0, hws, _, hX⟩ | hgap2
    · cases w with
      | nil => exact hw0 rfl
      | cons w0 w' =>
        rw [List.cons_append] at hX
        have h2 : collapseNewlines r = w' ++ '\n' :: y := (List.cons.injEq .. ▸ hX).2
        exact no_gap_head_collapse hr (fun a ha => hws a (by simp [ha])) h2
    · rcases hasGap_cons hgap2 with ⟨w, y, hw0, hws, _, hX⟩ | hgap3
      · exact no_gap_head_collapse hr hws hX
      · exact ih hgap3
  | case3 cs hg ih =>
    rw [collapseNewlines_cons_nl_none hg]
    intro hgap
    rcases hasGap_cons hgap with ⟨w, y, hw0, hws, _, hX⟩ | hgap2
    · exact no_gap_head_collapse hg hws hX
    · exact ih hgap2
  | case4 c cs hc ih =>
    rw [collapseNewlines_cons_ne hc]
    intro hgap
    rcases hasGap_cons hgap with ⟨w, y, hw0, hws, hcnl, hX⟩ | hgap2
    · exact hc hcnl
    · exact ih hgap2

/-- The blank-line substitution is the identity on gap-free content. -/
theorem collapseNewlines_eq_self : ∀ l, ¬ HasGap l → collapseNewlines l = l := by
  intro l
  induction l using collapseNewlines.induct with
  | case1 => intro _; exact collapseNewlines_nil
  | case2 cs r hg ih =>
    intro hng
    obtain ⟨w, hws, hcs⟩ := wsGap_decomp cs r hg
    cases w with
    | nil =>
      simp only [List.nil_append] at hcs
      have hng' : ¬ HasGap r := fun h => hng (by rw [hcs]; exact hasGap_cons_right (hasGap_cons_right h))
      rw [collapseNewlines_cons_nl_some hg, hcs, ih hng']
    | cons w0 w' =>
      exact (hng ⟨w0 :: w', by simp, hws, [], r, by simp [hcs]⟩).elim
  | case3 cs hg ih =>
    intro hng
    rw [collapseNewlines_cons_nl_none hg, ih (fun h => hng (hasGap_cons_right h))]
  | case4 c cs hc ih =>
    intro hng
    rw [collapseNewlines_cons_ne hc, ih (fun h => hng (hasGap_cons_right h))]

/-- No two adjacent spaces occur in `l`. -/
def NoDbl : Str → Prop
  | a :: b :: t => ¬(a = ' ' ∧ b = ' ') ∧ NoDbl (b :: t)
  | _ => True

theorem NoDbl.tail : ∀ {a : Char} {l : Str}, NoDbl (a :: l) → NoDbl l := by
  intro a l h
  cases l with
  | nil => trivial
  | cons b t => exact h.2

theorem noDbl_append_right : ∀ (u v : Str), NoDbl (u ++ v) → NoDbl v := by
  intro u
  induction u with
  | nil => exact fun v h => h
  | cons a u' ih => exact fun v h => ih v h.tail

theorem noDbl_append_left : ∀ (u v : Str), NoDbl (u ++ v) → NoDbl u := by
  intro u
  induction u with
  | nil => intro v _; trivial
  | cons a u' ih =>
    intro v h
    cases u' with
    | nil => trivial
    | cons b t => exact ⟨h.1, ih v h.2⟩

theorem NoDbl.seg {w l : Str} (h : NoDbl l) (hs : IsSeg w l) : NoDbl w := by
  obtain ⟨x, y, rfl⟩ := hs
  rw [List.append_assoc] at h
  exact noDbl_append_left w y (noDbl_append_right x _ h)

theorem noDbl_cons_of {a : Char} {l : Str}
    (h1 : ∀ b, l.head? = some b → ¬(a = ' ' ∧ b = ' ')) (h2 : NoDbl l) :
    NoDbl (a :: l) := by
  cases l with
  | nil => trivial
  | cons b t => exact ⟨h1 b rfl, h2⟩

theorem noDbl_head {a : Char} {l : Str} (h : NoDbl (a :: l)) :
    ∀ b, l.head? = some b → ¬(a = ' ' ∧ b = ' ') := by
  intro b hb
  cases l with
  | nil => simp at hb
  | cons c t =>
    simp at hb
    exact hb ▸ h.1

theorem isBlankChar_iff {c : Char} : isBlankChar c = true ↔ (c = '\t' ∨ c = ' ') := by
  simp [isBlankChar]

theorem head_collapseBlanks {b : Char} (t : Str) (hb : ¬ isBlankChar b = true) :
    (collapseBlanks (b :: t)).head? = some b := by
  cases t with
  | nil => simp [collapseBlanks, hb]
  | cons c t' => simp [collapseBlanks, hb]

theorem noTab_collapseBlanks : ∀ l, '\t' ∉ collapseBlanks l := by
  intro l
  induction l using collapseBlanks.induct with
  | case1 => simp [collapseBlanks]
  | case2 c hc => simp [collapseBlanks, hc]
  | case3 c hc =>
    simp only [collapseBlanks, if_neg hc]
    have : ¬ c = '\t' := fun he => hc (isBlankChar_iff.mpr (Or.inl he))
    simp [this, eq_comm]
  | case4 a b t ha hb ih =>
    simpa [collapseBlanks, ha, hb] using ih
  | case5 a b t ha hb ih =>
    simp only [collapseBlanks, if_pos ha, if_neg hb]
    intro hm
    rcases List.mem_cons.mp hm with hc | hc
    · exact absurd hc (by decide)
    · exact ih hc
  | case6 a b t ha ih =>
    simp only [collapseBlanks, if_neg ha]
    intro hm
    rcases List.mem_cons.mp hm with hc | hc
    · exact ha (isBlankChar_iff.mpr (Or.inl hc.symm))
    · exact ih hc

theorem noDbl_collapseBlanks : ∀ l, NoDbl (collapseBlanks l) := by
  intro l
  induction l using collapseBlanks.induct with
  | case1 => trivial
  | case2 c hc => simp only [collapseBlanks, if_pos hc]; trivial
  | case3 c hc => simp only [collapseBlanks, if_neg hc]; trivial
  | case4 a b t ha hb ih => simpa [collapseBlanks, ha, hb] using ih
  | case5 a b t ha hb ih =>
    simp only [collapseBlanks, if_pos ha, if_neg hb]
    refine noDbl_cons_of ?_ ih
    intro x hx
    rw [head_collapseBlanks t hb] at hx
    have hbx : x = b := by simpa using hx.symm
    have : ¬ b = ' ' := fun he => hb (isBlankChar_iff.mpr (Or.inr he))
    exact fun hcon => this (hbx ▸ hcon.2)
  | case6 a b t ha ih =>
    simp only [collapseBlanks, if_neg ha]
    refine noDbl_cons_of ?_ ih
    intro x _
    have : ¬ a = ' ' := fun he => ha (isBlankChar_iff.mpr (Or.inr he))
    exact fun hcon => this hcon.1

theorem collapseBlanks_eq_self : ∀ l, '\t' ∉ l → NoDbl l → collapseBlanks l = l := by
  intro l
  induction l using collapseBlanks.induct with
  | case1 => intro _ _; rfl
  | case2 c hc =>
    intro hT _
    have : c = ' ' := by
      rcases isBlankChar_iff.mp hc with h | h
      · exact absurd (h ▸ List.mem_singleton_self c) hT
      · exact h
    simp [collapseBlanks, hc, this]
  | case3 c hc => intro _ _; simp [collapseBlanks, hc]
  | case4 a b t ha hb ih =>
    intro hT hD
    exfalso
    have ha' : a = ' ' := by
      rcases isBlankChar_iff.mp ha with h | h
      · exact absurd (by simp [h]) hT
      · exact h
    have hb' : b = ' ' := by
      rcases isBlankChar_iff.mp hb with h | h
      · exact absurd (by simp [h]) hT
      · exact h
    exact hD.1 ⟨ha', hb'⟩
  | case5 a b t ha hb ih =>
    intro hT hD
    have ha' : a = ' ' := by
      rcases isBlankChar_iff.mp ha with h | h
      · exact absurd (by simp [h]) hT
      · exact h
    simp only [collapseBlanks, if_pos ha, if_neg hb]
    rw [ih (fun hm => hT (by simp [hm])) hD.tail, ha']
  | case6 a b t ha ih =>
    intro hT hD
    simp only [collapseBlanks, if_neg ha]
    rw [ih (fun hm => hT (by simp [hm])) hD.tail]

theorem noTab_collapseNewlines : ∀ l, '\t' ∉ l → '\t' ∉ collapseNewlines l := by
  intro l
  induction l using collapseNewlines.induct with
  | case1 => intro _; rw [collapseNewlines_nil]; simp
  | case2 cs r hg ih =>
    intro hT
    rw [collapseNewlines_cons_nl_some hg]
    obtain ⟨w, _, hcs⟩ := wsGap_decomp cs r hg
    have hr : '\t' ∉ r := fun hm => hT (by simp [hcs, hm])
    intro hm
    rcases List.mem_cons.mp hm with hc | hm2
    · exact absurd hc (by decide)
    · rcases List.mem_cons.mp hm2 with hc | hm3
      · exact absurd hc (by decide)
      · exact ih hr hm3
  | case3 cs hg ih =>
    intro hT
    rw [collapseNewlines_cons_nl_none hg]
    intro hm
    rcases List.mem_cons.mp hm with hc | hm2
    · exact absurd hc (by decide)
    · exact ih (fun hm => hT (by simp [hm])) hm2
  | case4 c cs hc ih =>
    intro hT
    rw [collapseNewlines_cons_ne hc]
    intro hm
    rcases List.mem_cons.mp hm with he | hm2
    · exact hT (by simp [← he])
    · exact ih (fun hm => hT (by simp [hm])) hm2

theorem noDbl_collapseNewlines : ∀ l, NoDbl l → NoDbl (collapseNewlines l) := by
  intro l
  induction l using collapseNewlines.induct with
  | case1 => intro _; rw [collapseNewlines_nil]; trivial
  | case2 cs r hg ih =>
    intro hD
    rw [collapseNewlines_cons_nl_some hg]
    obtain ⟨w, _, hcs⟩ := wsGap_decomp cs r hg
    have hr : NoDbl r := by
      have h1 : NoDbl cs := hD.tail
      rw [hcs] at h1
      exact (noDbl_append_right w _ h1).tail
    refine noDbl_cons_of (fun b _ hcon => by simp at hcon) ?_
    exact noDbl_cons_of (fun b _ hcon => by simp at hcon) (ih hr)
  | case3 cs hg ih =>
    intro hD
    rw [collapseNewlines_cons_nl_none hg]
    exact noDbl_cons_of (fun b _ hcon => by simp at hcon) (ih hD.tail)
  | case4 c cs hc ih =>
    intro hD
    rw [collapseNewlines_cons_ne hc]
    refine noDbl_cons_of ?_ (ih hD.tail)
    intro b hb
    rw [collapseNewlines_head] at hb
    exact noDbl_head hD b hb

theorem stripPy_isSeg (l : Str) : IsSeg (stripPy l) l := by
  refine ⟨l.takeWhile isPySpace,
    ((l.dropWhile isPySpace).reverse.takeWhile isPySpace).reverse, ?_⟩
  rw [List.append_assoc]
  conv_lhs => rw [← List.takeWhile_append_dropWhile isPySpace l]
  congr 1
  conv_lhs => rw [← List.reverse_reverse (l.dropWhile isPySpace),
    ← List.takeWhile_append_dropWhile isPySpace (l.dropWhile isPySpace).reverse]
  rw [List.reverse_append]
  rfl

theorem dropWhile_eq_self_of_head {p : Char → Bool} (l : Str)
    (h : ∀ c, l.head? = some c → p c = false) : l.dropWhile p = l := by
  cases l with
  | nil => rfl
  | cons a t => rw [List.dropWhile_cons_of_neg (by simp [h a rfl])]

theorem stripPy_getLast (l : Str) :
    ∀ a, (stripPy l).getLast? = some a → isPySpace a = false := by
  intro a ha
  rw [stripPy, List.getLast?_reverse] at ha
  exact head_dropWhile_false _ ha

theorem stripPy_head (l : Str) :
    ∀ a, (stripPy l).head? = some a → isPySpace a = false := by
  intro a ha
  rw [stripPy, List.head?_reverse] at ha
  have hv : (l.dropWhile isPySpace).reverse.dropWhile isPySpace ≠ [] := by
    intro h0
    rw [h0] at ha
    simp at ha
  have h1 : ((l.dropWhile isPySpace).reverse.dropWhile isPySpace).getLast? =
      (l.dropWhile isPySpace).reverse.getLast? := by
    conv_rhs =>
      rw [← List.takeWhile_append_dropWhile isPySpace (l.dropWhile isPySpace).reverse]
    exact (List.getLast?_append_of_ne_nil _ hv).symm
  rw [h1, List.getLast?_reverse] at ha
  exact head_dropWhile_false _ ha

theorem stripPy_idem (l : Str) : stripPy (stripPy l) = stripPy l := by
  have h1 : (stripPy l).dropWhile isPySpace = stripPy l :=
    dropWhile_eq_self_of_head _ (stripPy_head l)
  have h2 : (stripPy l).reverse.dropWhile isPySpace = (stripPy l).reverse := by
    apply dropWhile_eq_self_of_head
    intro c hc
    rw [List.head?_reverse] at hc
    exact stripPy_getLast l c hc
  rw [stripPy, h1, h2, List.reverse_reverse]

/-- C6: `remove_whitespace` is idempotent: compacting already-compacted
content yields the same content. -/
theorem remove_whitespace_idem (s : Str) :
    remove_whitespace (remove_whitespace s) = remove_whitespace s := by
  have hseg : IsSeg (remove_whitespace s) (collapseNewlines (collapseBlanks s)) :=
    stripPy_isSeg _
  have hT : '\t' ∉ remove_whitespace s := fun hm =>
    noTab_collapseNewlines _ (noTab_collapseBlanks s) (hseg.mem hm)
  have hD : NoDbl (remove_whitespace s) :=
    (noDbl_collapseNewlines _ (noDbl_collapseBlanks s)).seg hseg
  have hG : ¬ HasGap (remove_whitespace s) := fun h =>
    collapseNewlines_no_gap (collapseBlanks s) (h.mono hseg)
  rw [remove_whitespace, collapseBlanks_eq_self _ hT hD, collapseNewlines_eq_self _ hG,
    remove_whitespace, stripPy_idem]

/-! ### Path normalization and ignore filtering (aidigest.py lines 22-31, 88-98) -/

/-- `path.split('/')`. -/
def splitSlash : Str → List Str
  | [] => [[]]
  | c :: cs =>
    if c = '/' then [] :: splitSlash cs
    else
      match splitSlash cs with
      | [] => [[c]]
      | s :: rest => (c :: s) :: rest

/-- `'/'.join(comps)`. -/
def joinSlash : List Str → Str
  | [] => []
  | [s] => s
  | s :: rest => s ++ '/' :: joinSlash rest

/-- One step of the component loop of `posixpath.normpath`: skip empty and
`.` components, push ordinary components, and let `..` pop the previous
component unless it must be kept. -/
def normStep (initialSlashes : Nat) (acc : List Str) (comp : Str) : List Str :=
  if comp = [] ∨ comp = ".".data then acc
  else if ¬ comp = "..".data ∨ (initialSlashes = 0 ∧ acc = []) ∨
      (¬ acc = [] ∧ acc.getLast? = some "..".data) then
    acc ++ [comp]
  else if ¬ acc = [] then acc.dropLast
  else acc

/-- The number of leading slashes kept by `posixpath.normpath` (POSIX keeps
exactly two leading slashes as special, one or three-and-more collapse to
one). -/
def initialSlashCount (path : Str) : Nat :=
  if "/".data.isPrefixOf path then
    if "//".data.isPrefixOf path ∧ ¬ "///".data.isPrefixOf path then 2 else 1
  else 0

/-- `os.path.normpath` (POSIX flavour), following `posixpath.normpath`. -/
def normpath (path : Str) : Str :=
  if path = [] then ".".data
  else
    if List.replicate (initialSlashCount path) '/' ++
        joinSlash ((splitSlash path).foldl (normStep (initialSlashCount path)) []) = [] then
      ".".data
    else
      List.replicate (initialSlashCount path) '/' ++
        joinSlash ((splitSlash path).foldl (normStep (initialSlashCount path)) [])

/-- `os.path.join(p, '')` for POSIX paths: append a slash unless `p` is empty
or already ends with one. -/
def joinEmpty (p : Str) : Str :=
  if p = [] then p
  else if p.getLast? = some '/' then p
  else p ++ ['/']

/-- `IgnoreFilter` (aidigest.py lines 88-98): a list of ignore patterns. -/
structure IgnoreFilter where
  patterns : List Str

/-- The `IgnoreFilter` constructor (lines 89-90): normalize every pattern. -/
def IgnoreFilter.ofPatterns (patterns : List Str) : IgnoreFilter :=
  ⟨patterns.map normpath⟩

/-- `IgnoreFilter.ignores(path)` (lines 92-98).  The `path` argument stands
for the path relative to the current working directory; for such paths
`os.path.relpath(path)` coincides with `os.path.normpath(path)`, so
`relative_path = normpath path` models line 93.  Each pattern is normalized
again (line 95) and matches on equality or on the `os.path.join(pattern, '')`
prefix (line 96). -/
def IgnoreFilter.ignores (f : IgnoreFilter) (path : Str) : Bool :=
  let relative_path := normpath path
  f.patterns.any fun pat =>
    let pattern := normpath pat
    relative_path == pattern || (joinEmpty pattern).isPrefixOf relative_path

/-- `DEFAULT_IGNORES` (aidigest.py lines 22-31), verbatim. -/
def DEFAULT_IGNORES : List Str :=
  [".git".data, ".svn".data, ".hg".data, ".idea".data, ".vscode".data,
   "node_modules".data, "venv".data, "env".data, "__pycache__".data,
   "*.pyc".data, "*.pyo".data, "*.pyd".data, "*.db".data, "*.sqlite3".data,
   "*.log".data, "*.sql".data, "*.swp".data, "*.swo".data,
   "*.bak".data, "*.tmp".data, "*.temp".data,
   "*.o".data, "*.obj".data, "*.exe".data, "*.dll".data, "*.so".data,
   "*.dylib".data,
   "*.jar".data, "*.war".data, "*.ear".data, "*.sar".data, "*.class".data,
   "*.lock".data, "*.DS_Store".data, "Thumbs.db".data]

/-- C2 (code bug): with default ignores enabled, candidate files whose names
carry the default-ignored compiled-artifact, archive or lock-file extensions
(`x.pyc`, `x.o`, `x.lock` in the current working directory) are NOT matched by
the default `IgnoreFilter`: its path-prefix matching never interprets the
`*.`-extension entries of `DEFAULT_IGNORES` as globs, so those entries match
no real file name, while directory entries such as `.git` do match. -/
theorem default_ignores_extension_entries_dead :
    (IgnoreFilter.ofPatterns DEFAULT_IGNORES).ignores "x.pyc".data = false ∧
    (IgnoreFilter.ofPatterns DEFAULT_IGNORES).ignores "x.o".data = false ∧
    (IgnoreFilter.ofPatterns DEFAULT_IGNORES).ignores "x.lock".data = false ∧
    (IgnoreFilter.ofPatterns DEFAULT_IGNORES).ignores ".git/config".data = true := by
  refine ⟨?_, ?_, ?_, ?_⟩ <;> decide

/-- C5 counterexample: prefix closure of `ignores` fails at the pattern `.`:
the filter built from `["."]` ignores the path `.` but not its descendant
`./x`, because `os.path.relpath` rewrites `./x` to `x`, which no longer
matches the pattern. -/
theorem ignores_not_prefix_closed_at_dot :
    (IgnoreFilter.ofPatterns [".".data]).ignores ".".data = true ∧
    (IgnoreFilter.ofPatterns [".".data]).ignores ("." ++ "/" ++ "x").data = false := by
  exact ⟨by decide, by decide⟩

theorem splitSlash_ne_nil : ∀ s : Str, ¬ splitSlash s = [] := by
  intro s
  cases s with
  | nil => simp [splitSlash]
  | cons c cs =>
    by_cases hc : c = '/'
    · simp [splitSlash, hc]
    · simp only [splitSlash, if_neg hc]
      cases splitSlash cs <;> simp

theorem splitSlash_append :
    ∀ a b : Str, splitSlash (a ++ '/' :: b) = splitSlash a ++ splitSlash b := by
  intro a
  induction a with
  | nil => intro b; simp [splitSlash]
  | cons c cs ih =>
    intro b
    by_cases hc : c = '/'
    · simp [List.cons_append, splitSlash, if_pos hc, ih]
    · simp only [List.cons_append, splitSlash, if_neg hc, List.append_eq]
      rw [ih b]
      cases hcs : splitSlash cs with
      | nil => exact (splitSlash_ne_nil cs hcs).elim
      | cons s rest => simp

theorem splitSlash_no_slash : ∀ c : Str, '/' ∉ c → splitSlash c = [c] := by
  intro c
  induction c with
  | nil => intro _; rfl
  | cons a t ih =>
    intro h
    have ha : ¬ a = '/' := fun he => h (by simp [he])
    simp only [splitSlash, if_neg ha, ih (fun hm => h (by simp [hm]))]

theorem joinSlash_cons_cons (x y : Str) (l : List Str) :
    joinSlash (x :: y :: l) = x ++ '/' :: joinSlash (y :: l) := rfl

theorem joinSlash_append_singleton : ∀ (xs : List Str) (c : Str), ¬ xs = [] →
    joinSlash (xs ++ [c]) = joinSlash xs ++ '/' :: c := by
  intro xs
  induction xs with
  | nil => intro c h; exact (h rfl).elim
  | cons x xs ih =>
    intro c _
    cases xs with
    | nil => simp [joinSlash, joinSlash_cons_cons]
    | cons y ys =>
      rw [show (x :: y :: ys) ++ [c] = x :: y :: (ys ++ [c]) from rfl,
        joinSlash_cons_cons x y (ys ++ [c]), joinSlash_cons_cons x y ys,
        show y :: (ys ++ [c]) = (y :: ys) ++ [c] from rfl, ih c (by simp)]
      simp

theorem normStep_clean (i : Nat) (acc : List Str) (c : Str)
    (h0 : ¬ c = []) (h1 : ¬ c = ".".data) (h2 : ¬ c = "..".data) :
    normStep i acc c = acc ++ [c] := by
  rw [normStep, if_neg (not_or.mpr ⟨h0, h1⟩), if_pos (Or.inl h2)]

theorem isPrefixOf_append_self : ∀ x y : Str, x.isPrefixOf (x ++ y) = true := by
  intro x y
  induction x with
  | nil => simp [List.isPrefixOf]
  | cons a t ih => simpa [List.isPrefixOf] using ih

theorem isPrefixOf_append_right :
    ∀ x y z : Str, x.isPrefixOf y = true → x.isPrefixOf (y ++ z) = true := by
  intro x
  induction x with
  | nil => intro y z _; simp [List.isPrefixOf]
  | cons a t ih =>
    intro y z h
    cases y with
    | nil => simp [List.isPrefixOf] at h
    | cons b u =>
      simp only [List.isPrefixOf, Bool.and_eq_true] at h ⊢
      exact ⟨h.1, ih u z h.2⟩

theorem joinEmpty_isPrefixOf_append (q c : Str) :
    (joinEmpty q).isPrefixOf (q ++ '/' :: c) = true := by
  by_cases h0 : q = []
  · subst h0; simp [joinEmpty]
  · by_cases hl : q.getLast? = some '/'
    · rw [joinEmpty, if_neg h0, if_pos hl]
      exact isPrefixOf_append_self q ('/' :: c)
    · rw [joinEmpty, if_neg h0, if_neg hl,
        show q ++ '/' :: c = (q ++ ['/']) ++ c by simp]
      exact isPrefixOf_append_self _ _

theorem initialSlashCount_eq_zero {p : Str} (h : ("/".data).isPrefixOf p = false) :
    initialSlashCount p = 0 := by
  rw [initialSlashCount, if_neg (by simp [h])]

theorem slash_isPrefixOf_append {p : Str} (hp : ¬ p = []) (z : Str) :
    ("/".data).isPrefixOf (p ++ z) = ("/".data).isPrefixOf p := by
  cases p with
  | nil => exact (hp rfl).elim
  | cons a t => simp [List.isPrefixOf]

theorem normpath_nil : normpath [] = ".".data := by
  rw [normpath, if_pos rfl]

/-- Appending a clean path segment to a relative path whose normal form is
not `.` commutes with `normpath`. -/
theorem normpath_append_seg {p c : Str}
    (hrel : ("/".data).isPrefixOf p = false)
    (hpdot : ¬ normpath p = ".".data)
    (hc0 : ¬ c = []) (hcs : '/' ∉ c) (hcd : ¬ c = ".".data) (hcdd : ¬ c = "..".data) :
    normpath (p ++ '/' :: c) = normpath p ++ '/' :: c := by
  have hp0 : ¬ p = [] := by
    intro h
    exact hpdot (h ▸ normpath_nil)
  have hq0 : ¬ (p ++ '/' :: c) = [] := by simp
  have hzero : initialSlashCount p = 0 := initialSlashCount_eq_zero hrel
  have hzeroq : initialSlashCount (p ++ '/' :: c) = 0 := by
    apply initialSlashCount_eq_zero
    rw [slash_isPrefixOf_append hp0]
    exact hrel
  have hsplit : splitSlash (p ++ '/' :: c) = splitSlash p ++ [c] := by
    rw [splitSlash_append, splitSlash_no_slash c hcs]
  have hfold : (splitSlash (p ++ '/' :: c)).foldl (normStep 0) [] =
      (splitSlash p).foldl (normStep 0) [] ++ [c] := by
    rw [hsplit, List.foldl_append, List.foldl_cons, List.foldl_nil,
      normStep_clean 0 _ c hc0 hcd hcdd]
  by_cases hj : joinSlash ((splitSlash p).foldl (normStep 0) []) = []
  · exfalso
    apply hpdot
    rw [normpath, if_neg hp0, hzero]
    simp [hj]
  · have hnp : normpath p = joinSlash ((splitSlash p).foldl (normStep 0) []) := by
      rw [normpath, if_neg hp0, hzero]
      simp [hj]
    have hAne : ¬ (splitSlash p).foldl (normStep 0) [] = [] := by
      intro h
      rw [h] at hj
      exact hj rfl
    rw [normpath, if_neg hq0, hzeroq]
    simp only [List.replicate, List.nil_append]
    rw [hfold, joinSlash_append_singleton _ c hAne, if_neg (by simp), hnp]

/-- C5 (amended): for every `IgnoreFilter` and every relative path `P` whose
normalized form is not `.`, if `ignores(P)` is true then `ignores(P/child)`
is true for every clean child segment; moreover a pattern matches only whole
path segments, so pattern `foo` does not match path `foobar`.  (The
unrestricted claim fails when `normpath P = '.'`, see the counterexample.) -/
theorem ignores_prefix_closed :
    (∀ (pats : List Str) (p c : Str),
        ("/".data).isPrefixOf p = false →
        ¬ normpath p = ".".data →
        ¬ c = [] → '/' ∉ c → ¬ c = ".".data → ¬ c = "..".data →
        (IgnoreFilter.ofPatterns pats).ignores p = true →
        (IgnoreFilter.ofPatterns pats).ignores (p ++ '/' :: c) = true) ∧
    (IgnoreFilter.ofPatterns ["foo".data]).ignores "foobar".data = false := by
  constructor
  · intro pats p c hrel hpdot hc0 hcs hcd hcdd hig
    simp only [IgnoreFilter.ignores, IgnoreFilter.ofPatterns, List.any_map,
      List.any_eq_true, Function.comp, Bool.or_eq_true, beq_iff_eq] at hig ⊢
    obtain ⟨pat, hmem, hmatch⟩ := hig
    refine ⟨pat, hmem, ?_⟩
    rw [normpath_append_seg hrel hpdot hc0 hcs hcd hcdd]
    rcases hmatch with heq | hpre
    · exact Or.inr (heq ▸ joinEmpty_isPrefixOf_append _ c)
    · exact Or.inr (isPrefixOf_append_right _ _ _ hpre)
  · decide

/-- Witness for the amended C5 theorem: pattern `a` ignores `a` and also its
child `a/b`; pattern `foo` does not match `foobar`. -/
theorem ignores_prefix_closed_witness :
    (IgnoreFilter.ofPatterns ["a".data]).ignores ("a".data ++ '/' :: "b".data) = true ∧
    (IgnoreFilter.ofPatterns ["foo".data]).ignores "foobar".data = false :=
  ⟨ignores_prefix_closed.1 ["a".data] "a".data "b".data (by decide) (by decide)
      (by decide) (by decide) (by decide) (by decide) (by decide),
    ignores_prefix_closed.2⟩

/-! ### Classification, token estimation and the aggregation loop
(aidigest.py lines 19-21, 62-83, 136-225) -/

/-- The `\w` word-character class (ASCII; the spec leaves non-ASCII word
boundaries out of scope). -/
def isWordChar (c : Char) : Bool := c.isAlpha || c.isDigit || c = '_'

theorem dropWhile_length_le (p : Char → Bool) :
    ∀ l : Str, (l.dropWhile p).length ≤ l.length := by
  intro l
  induction l with
  | nil => simp
  | cons a t ih =>
    by_cases ha : p a
    · rw [List.dropWhile_cons_of_pos ha]
      exact Nat.le_succ_of_le ih
    · rw [List.dropWhile_cons_of_neg ha]

/-- `estimate_token_count` (lines 62-66): `re.findall(r'\b\w+\b|[^\w\s]', s)`
counts each maximal run of word characters as one token and each character
that is neither a word character nor whitespace as one token. -/
def estimate_token_count : Str → Nat
  | [] => 0
  | c :: cs =>
    if isWordChar c then 1 + estimate_token_count (cs.dropWhile isWordChar)
    else if isPySpace c then estimate_token_count cs
    else 1 + estimate_token_count cs
termination_by s => s.length
decreasing_by
  all_goals simp only [List.length_cons]
  · exact Nat.lt_succ_of_le (dropWhile_length_le _ _)
  all_goals omega

/-- `is_text_file` (lines 68-75): the result of MIME sniffing is modelled as
`some mimeType`, or `none` when `magic` raises; on an exception the source
logs a warning and returns `False`. -/
def is_text_file (mime : Option Str) : Bool :=
  match mime with
  | some file_type =>
    ("text/".data).isPrefixOf file_type ||
      ["application/json".data, "application/xml".data].contains file_type
  | none => false

/-- `get_file_type` (lines 77-83): the sniffed MIME type, or `"unknown"` when
sniffing raises. -/
def get_file_type (mime : Option Str) : Str :=
  match mime with
  | some t => t
  | none => "unknown".data

/-- `len(s.encode('utf-8'))`. -/
def utf8Len (s : Str) : Nat := (s.map Char.utf8Size).sum

/-- `MAX_FILE_SIZE` (line 19): 10 MB in bytes. -/
def MAX_FILE_SIZE : Nat := 10 * 1024 * 1024

/-- `WHITESPACE_DEPENDENT_EXTENSIONS` (line 21). -/
def WHITESPACE_DEPENDENT_EXTENSIONS : List Str :=
  [".md".data, ".txt".data, ".rtf".data]

/-- `pathlib.PurePath(p).name` for a file path: the final path component. -/
def pathName (p : Str) : Str := (splitSlash p).getLastD []

/-- `pathlib.PurePath(p).suffix`: `name[i:]` for `i = name.rfind('.')` when
`0 < i < len(name) - 1`, else the empty string. -/
def pathSuffix (p : Str) : Str :=
  if pathName p |>.contains '.' then
    if 0 < (pathName p).length - 1 - ((pathName p).reverse.indexOf '.') ∧
        (pathName p).length - 1 - ((pathName p).reverse.indexOf '.') <
          (pathName p).length - 1 then
      (pathName p).drop ((pathName p).length - 1 - ((pathName p).reverse.indexOf '.'))
    else []
  else []

/-- One candidate file together with its environment-determined effect
results: `path` is the absolute path (`os.path.abspath(file)`), `rel` the
corresponding `os.path.relpath(file)` used for headers and filters, `mime`
the MIME sniffing result (`none` models an exception), and `content` the
result of reading the file as UTF-8 text (`none` models a read error). -/
structure FileEntry where
  path : Str
  rel : Str
  mime : Option Str
  content : Option Str

/-- The mutable loop state of `aggregate_files` (lines 160-165). -/
structure AggState where
  output : Str
  included_count : Nat
  default_ignored_count : Nat
  custom_ignored_count : Nat
  binary_and_svg_file_count : Nat
  included_files : List Str

/-- The initial loop state (lines 160-165). -/
def initState : AggState := ⟨[], 0, 0, 0, 0, []⟩

/-- The run parameters of `aggregate_files` after its setup phase (lines
136-144): the absolute output-file path, the default-ignore toggle, the two
filters built on lines 143-144, and the whitespace-removal flag. -/
structure AggArgs where
  output_file : Str
  use_default_ignores : Bool
  default_ignore : IgnoreFilter
  custom_ignore : IgnoreFilter
  remove_whitespace_flag : Bool

/-- The filter construction of lines 142-144:
`IgnoreFilter(DEFAULT_IGNORES if use_default_ignores else [])` and
`IgnoreFilter(user_ignore_patterns + exclude_patterns)`. -/
def mkAggArgs (output_file : Str) (user_ignore_patterns exclude_patterns : List Str)
    (use_default_ignores remove_whitespace_flag : Bool) : AggArgs :=
  ⟨output_file, use_default_ignores,
    IgnoreFilter.ofPatterns (if use_default_ignores then DEFAULT_IGNORES else []),
    IgnoreFilter.ofPatterns (user_ignore_patterns ++ exclude_patterns),
    remove_whitespace_flag⟩

/-- The fenced text block appended on line 185:
`f"# {relative_path}\n\n3BT{suffix}\n{content}\n3BT\n\n"` (with `3BT` a triple
backtick), after escaping and optional whitespace removal (lines 182-184). -/
def textBlock (a : AggArgs) (f : FileEntry) (content0 : Str) : Str :=
  "# ".data ++ f.rel ++ "\n\n```".data ++ (pathSuffix f.path).drop 1 ++
    "\n".data ++
    (if a.remove_whitespace_flag &&
        ! (WHITESPACE_DEPENDENT_EXTENSIONS.any fun ext => ext.isSuffixOf f.path) then
      remove_whitespace (escape_triple_backticks content0)
    else escape_triple_backticks content0) ++
    "\n```\n\n".data

/-- The description block appended on lines 192-196 for a non-text file. -/
def binaryBlock (f : FileEntry) : Str :=
  "# ".data ++ f.rel ++ "\n\n".data ++
    (if get_file_type f.mime == "image/svg+xml".data then
      "This is a file of the type: SVG Image\n\n".data
    else
      "This is a binary file of the type: ".data ++ get_file_type f.mime ++
        "\n\n".data)

/-- The body of the `for file in all_files` loop (lines 167-199) for one
candidate: skip the output file itself, count files hit by the default or
custom filters, append a fenced block for readable text files (a read error
is logged and leaves the state unchanged), and append a description block
for non-text files. -/
def processFile (a : AggArgs) (st : AggState) (f : FileEntry) : AggState :=
  if a.output_file == f.path then st
  else if a.use_default_ignores && a.default_ignore.ignores f.rel then
    { st with default_ignored_count := st.default_ignored_count + 1 }
  else if a.custom_ignore.ignores f.rel then
    { st with custom_ignored_count := st.custom_ignored_count + 1 }
  else if is_text_file f.mime then
    match f.content with
    | some content =>
      { st with
        output := st.output ++ textBlock a f content,
        included_count := st.included_count + 1,
        included_files := st.included_files ++ [f.rel] }
    | none => st
  else
    { st with
      output := st.output ++ binaryBlock f,
      binary_and_svg_file_count := st.binary_and_svg_file_count + 1,
      included_count := st.included_count + 1,
      included_files := st.included_files ++ [f.rel] }

/-- The whole candidate loop of `aggregate_files` (lines 160-199): a fold
over the candidate files in their iteration order.  The source iterates a
Python `set`, whose iteration order is an artifact of string hashing; the
list argument stands for that iteration order. -/
def aggregate_files (a : AggArgs) (files : List FileEntry) : AggState :=
  files.foldl (processFile a) initState

/-- The tail of `aggregate_files` (lines 201-225): write the document,
measure the persisted file (`persist` models the file system and returns the
byte count reported by `os.path.getsize` after the write), raise
`ValueError('File size mismatch after writing')` when it differs from the
in-memory UTF-8 byte length, and otherwise report the estimated token count,
which is skipped for documents larger than `MAX_FILE_SIZE`. -/
def runAggregate (a : AggArgs) (files : List FileEntry) (persist : Str → Nat) :
    Except Str (AggState × Nat × Option Nat) :=
  let st := aggregate_files a files
  let file_size_in_bytes := persist st.output
  if ¬ file_size_in_bytes = utf8Len st.output then
    Except.error "File size mismatch after writing".data
  else
    Except.ok (st, file_size_in_bytes,
      if file_size_in_bytes > MAX_FILE_SIZE then none
      else some (estimate_token_count st.output))

/-- The first-matching-branch classification of one candidate: the loop skips
it as the output file itself. -/
def selfFile (a : AggArgs) (f : FileEntry) : Bool := a.output_file == f.path

/-- The candidate is counted by the default-ignore branch (line 171). -/
def defaultIgnoredFile (a : AggArgs) (f : FileEntry) : Bool :=
  if a.output_file == f.path then false
  else a.use_default_ignores && a.default_ignore.ignores f.rel

/-- The candidate is counted by the custom-ignore branch (line 174). -/
def customIgnoredFile (a : AggArgs) (f : FileEntry) : Bool :=
  if a.output_file == f.path then false
  else if a.use_default_ignores && a.default_ignore.ignores f.rel then false
  else a.custom_ignore.ignores f.rel

/-- The candidate is a text file whose read raises (lines 188-189): logged
and skipped, counted in no summary bucket. -/
def readErrorFile (a : AggArgs) (f : FileEntry) : Bool :=
  if a.output_file == f.path then false
  else if a.use_default_ignores && a.default_ignore.ignores f.rel then false
  else if a.custom_ignore.ignores f.rel then false
  else if is_text_file f.mime then f.content.isNone
  else false

/-- The candidate contributes a block to the output document. -/
def includedFile (a : AggArgs) (f : FileEntry) : Bool :=
  if a.output_file == f.path then false
  else if a.use_default_ignores && a.default_ignore.ignores f.rel then false
  else if a.custom_ignore.ignores f.rel then false
  else if is_text_file f.mime then f.content.isSome
  else true

/-- The candidate contributes a binary/SVG description block. -/
def binarySvgFile (a : AggArgs) (f : FileEntry) : Bool :=
  if a.output_file == f.path then false
  else if a.use_default_ignores && a.default_ignore.ignores f.rel then false
  else if a.custom_ignore.ignores f.rel then false
  else if is_text_file f.mime then false
  else true

/-- The block an included candidate appends to the document. -/
def blockFor (a : AggArgs) (f : FileEntry) : Str :=
  if is_text_file f.mime then
    match f.content with
    | some content => textBlock a f content
    | none => []
  else binaryBlock f

/-- Loop invariant of the candidate fold: every counter counts exactly the
candidates classified into its branch, the included-file listing records the
included candidates in iteration order, and the output document is the
concatenation of one block per included candidate. -/
theorem aggregate_loop_spec (a : AggArgs) :
    ∀ (fs : List FileEntry) (st : AggState),
      (fs.foldl (processFile a) st).included_count =
          st.included_count + fs.countP (includedFile a) ∧
      (fs.foldl (processFile a) st).default_ignored_count =
          st.default_ignored_count + fs.countP (defaultIgnoredFile a) ∧
      (fs.foldl (processFile a) st).custom_ignored_count =
          st.custom_ignored_count + fs.countP (customIgnoredFile a) ∧
      (fs.foldl (processFile a) st).binary_and_svg_file_count =
          st.binary_and_svg_file_count + fs.countP (binarySvgFile a) ∧
      (fs.foldl (processFile a) st).included_files =
          st.included_files ++ (fs.filter (includedFile a)).map FileEntry.rel ∧
      (fs.foldl (processFile a) st).output =
          st.output ++ ((fs.filter (includedFile a)).map (blockFor a)).flatten := by
  intro fs
  induction fs with
  | nil => intro st; simp
  | cons f fs ih =>
    intro st
    rw [List.foldl_cons]
    by_cases hs : a.output_file == f.path
    · obtain ⟨h1, h2, h3, h4, h5, h6⟩ := ih st
      have hp : processFile a st f = st := by simp [processFile, hs]
      rw [hp]
      simp [includedFile, defaultIgnoredFile, customIgnoredFile, binarySvgFile,
        hs, List.countP_cons, List.filter_cons, h1, h2, h3, h4, h5, h6]
    · by_cases hd : a.use_default_ignores && a.default_ignore.ignores f.rel
      · have hp : processFile a st f =
            { st with default_ignored_count := st.default_ignored_count + 1 } := by
          simp [processFile, hs, hd]
        obtain ⟨h1, h2, h3, h4, h5, h6⟩ := ih (processFile a st f)
        rw [hp] at h1 h2 h3 h4 h5 h6 ⊢
        simp only [h1, h2, h3, h4, h5, h6]
        simp [includedFile, defaultIgnoredFile, customIgnoredFile, binarySvgFile,
          hs, hd, List.countP_cons, List.filter_cons]
        omega
      · by_cases hc : a.custom_ignore.ignores f.rel
        · have hp : processFile a st f =
              { st with custom_ignored_count := st.custom_ignored_count + 1 } := by
            simp [processFile, hs, hd, hc]
          obtain ⟨h1, h2, h3, h4, h5, h6⟩ := ih (processFile a st f)
          rw [hp] at h1 h2 h3 h4 h5 h6 ⊢
          simp only [h1, h2, h3, h4, h5, h6]
          simp [includedFile, defaultIgnoredFile, customIgnoredFile, binarySvgFile,
            hs, hd, hc, List.countP_cons, List.filter_cons]
          omega
        · by_cases ht : is_text_file f.mime
          · cases hcont : f.content with
            | some content =>
              have hp : processFile a st f =
                  { st with
                    output := st.output ++ textBlock a f content,
                    included_count := st.included_count + 1,
                    included_files := st.included_files ++ [f.rel] } := by
                simp [processFile, hs, hd, hc, ht, hcont]
              obtain ⟨h1, h2, h3, h4, h5, h6⟩ := ih (processFile a st f)
              rw [hp] at h1 h2 h3 h4 h5 h6 ⊢
              simp only [h1, h2, h3, h4, h5, h6]
              simp [includedFile, defaultIgnoredFile, customIgnoredFile,
                binarySvgFile, blockFor, hs, hd, hc, ht, hcont,
                List.countP_cons, List.filter_cons]
              omega
            | none =>
              have hp : processFile a st f = st := by
                simp [processFile, hs, hd, hc, ht, hcont]
              obtain ⟨h1, h2, h3, h4, h5, h6⟩ := ih st
              rw [hp]
              simp [includedFile, defaultIgnoredFile, customIgnoredFile,
                binarySvgFile, hs, hd, hc, ht, hcont,
                List.countP_cons, List.filter_cons, h1, h2, h3, h4, h5, h6]
          · have hp : processFile a st f =
                { st with
                  output := st.output ++ binaryBlock f,
                  binary_and_svg_file_count := st.binary_and_svg_file_count + 1,
                  included_count := st.included_count + 1,
                  included_files := st.included_files ++ [f.rel] } := by
              simp [processFile, hs, hd, hc, ht]
            obtain ⟨h1, h2, h3, h4, h5, h6⟩ := ih (processFile a st f)
            rw [hp] at h1 h2 h3 h4 h5 h6 ⊢
            simp only [h1, h2, h3, h4, h5, h6]
            simp [includedFile, defaultIgnoredFile, customIgnoredFile,
              binarySvgFile, blockFor, hs, hd, hc, ht,
              List.countP_cons, List.filter_cons]
            omega

theorem bucket_partition (a : AggArgs) :
    ∀ fs : List FileEntry,
      fs.countP (includedFile a) + fs.countP (defaultIgnoredFile a) +
        fs.countP (customIgnoredFile a) +
        fs.countP (fun f => selfFile a f || readErrorFile a f) = fs.length := by
  intro fs
  induction fs with
  | nil => simp
  | cons f fs ih =>
    simp only [List.countP_cons, List.length_cons]
    have key : (if includedFile a f = true then 1 else 0) +
        (if defaultIgnoredFile a f = true then 1 else 0) +
        (if customIgnoredFile a f = true then 1 else 0) +
        (if (selfFile a f || readErrorFile a f) = true then 1 else 0) = 1 := by
      by_cases hs : a.output_file == f.path
      · have e1 : includedFile a f = false := by simp [includedFile, hs]
        have e2 : defaultIgnoredFile a f = false := by simp [defaultIgnoredFile, hs]
        have e3 : customIgnoredFile a f = false := by simp [customIgnoredFile, hs]
        have e4 : (selfFile a f || readErrorFile a f) = true := by
          simp [selfFile, hs]
        rw [e1, e2, e3, e4]
        simp
      · by_cases hd : a.use_default_ignores && a.default_ignore.ignores f.rel
        · have e1 : includedFile a f = false := by simp [includedFile, hs, hd]
          have e2 : defaultIgnoredFile a f = true := by
            simp [defaultIgnoredFile, hs, hd]
          have e3 : customIgnoredFile a f = false := by
            simp [customIgnoredFile, hs, hd]
          have e4 : (selfFile a f || readErrorFile a f) = false := by
            simp [selfFile, readErrorFile, hs, hd]
          rw [e1, e2, e3, e4]
          simp
        · by_cases hc : a.custom_ignore.ignores f.rel
          · have e1 : includedFile a f = false := by simp [includedFile, hs, hd, hc]
            have e2 : defaultIgnoredFile a f = false := by
              simp [defaultIgnoredFile, hs, hd]
            have e3 : customIgnoredFile a f = true := by
              simp [customIgnoredFile, hs, hd, hc]
            have e4 : (selfFile a f || readErrorFile a f) = false := by
              simp [selfFile, readErrorFile, hs, hd, hc]
            rw [e1, e2, e3, e4]
            simp
          · by_cases ht : is_text_file f.mime
            · cases hcont : f.content with
              | some content =>
                have e1 : includedFile a f = true := by
                  simp [includedFile, hs, hd, hc, ht, hcont]
                have e2 : defaultIgnoredFile a f = false := by
                  simp [defaultIgnoredFile, hs, hd]
                have e3 : customIgnoredFile a f = false := by
                  simp [customIgnoredFile, hs, hd, hc]
                have e4 : (selfFile a f || readErrorFile a f) = false := by
                  simp [selfFile, readErrorFile, hs, hd, hc, ht, hcont]
                rw [e1, e2, e3, e4]
                simp
              | none =>
                have e1 : includedFile a f = false := by
                  simp [includedFile, hs, hd, hc, ht, hcont]
                have e2 : defaultIgnoredFile a f = false := by
                  simp [defaultIgnoredFile, hs, hd]
                have e3 : customIgnoredFile a f = false := by
                  simp [customIgnoredFile, hs, hd, hc]
                have e4 : (selfFile a f || readErrorFile a f) = true := by
                  simp [selfFile, readErrorFile, hs, hd, hc, ht, hcont]
                rw [e1, e2, e3, e4]
                simp
            · have e1 : includedFile a f = true := by
                simp [includedFile, hs, hd, hc, ht]
              have e2 : defaultIgnoredFile a f = false := by
                simp [defaultIgnoredFile, hs, hd]
              have e3 : customIgnoredFile a f = false := by
                simp [customIgnoredFile, hs, hd, hc]
              have e4 : (selfFile a f || readErrorFile a f) = false := by
                simp [selfFile, readErrorFile, hs, hd, hc, ht]
              rw [e1, e2, e3, e4]
              simp
    omega

/-- C9: at the end of every run `included_count` equals the length of
`included_files` and equals the number of blocks appended to the document
(one block per included candidate, text plus binary/SVG); each summary
counter counts exactly its branch; and `included_count` plus the two ignore
counters falls short of the total number of files found by exactly the
candidates skipped as the output file itself or by per-file read errors,
which are counted in no summary bucket. -/
theorem aggregate_counts (a : AggArgs) (files : List FileEntry) :
    (aggregate_files a files).included_count =
        (aggregate_files a files).included_files.length ∧
    (aggregate_files a files).output =
        ((files.filter (includedFile a)).map (blockFor a)).flatten ∧
    (aggregate_files a files).included_count = files.countP (includedFile a) ∧
    (aggregate_files a files).default_ignored_count =
        files.countP (defaultIgnoredFile a) ∧
    (aggregate_files a files).custom_ignored_count =
        files.countP (customIgnoredFile a) ∧
    (aggregate_files a files).binary_and_svg_file_count =
        files.countP (binarySvgFile a) ∧
    (aggregate_files a files).included_count +
        (aggregate_files a files).default_ignored_count +
        (aggregate_files a files).custom_ignored_count +
        files.countP (fun f => selfFile a f || readErrorFile a f) =
      files.length := by
  obtain ⟨h1, h2, h3, h4, h5, h6⟩ := aggregate_loop_spec a files initState
  have e : files.foldl (processFile a) initState = aggregate_files a files := rfl
  rw [e] at h1 h2 h3 h4 h5 h6
  simp only [initState, List.nil_append, Nat.zero_add] at h1 h2 h3 h4 h5 h6
  refine ⟨?_, h6, h1, h2, h3, h4, ?_⟩
  · rw [h1, h5, List.length_map, List.countP_eq_length_filter]
  · rw [h1, h2, h3]
    exact bucket_partition a files

/-- C4: `aggregate_files` raises the fatal
`ValueError('File size mismatch after writing')` exactly when the persisted
byte length differs from the in-memory UTF-8 byte length of the serialized
document; whenever the run returns normally the two lengths are equal, and
nothing else — in particular no per-file read error — raises this error. -/
theorem run_integrity (a : AggArgs) (files : List FileEntry) (persist : Str → Nat) :
    (runAggregate a files persist =
        Except.error "File size mismatch after writing".data ↔
      ¬ persist (aggregate_files a files).output =
          utf8Len (aggregate_files a files).output) ∧
    (∀ r, runAggregate a files persist = Except.ok r →
      persist (aggregate_files a files).output =
        utf8Len (aggregate_files a files).output) := by
  by_cases hq : persist (aggregate_files a files).output =
      utf8Len (aggregate_files a files).output
  · constructor
    · simp [runAggregate, hq]
    · intro r _
      exact hq
  · constructor
    · simp [runAggregate, hq]
    · intro r hr
      simp [runAggregate, hq] at hr

/-- C7: a text-classified candidate whose read raises contributes nothing to
the run: no block (not even a partial one) is appended to the document, no
counter or listing changes, and the fold continues over the remaining files
exactly as if the failing file were absent; the loop is a total function, so
the read error never propagates out of `aggregate_files`. -/
theorem read_error_file_skipped (a : AggArgs) (xs ys : List FileEntry)
    (f : FileEntry)
    (hself : (a.output_file == f.path) = false)
    (hdef : (a.use_default_ignores && a.default_ignore.ignores f.rel) = false)
    (hcust : a.custom_ignore.ignores f.rel = false)
    (htext : is_text_file f.mime = true)
    (herr : f.content = none) :
    aggregate_files a (xs ++ f :: ys) = aggregate_files a (xs ++ ys) := by
  unfold aggregate_files
  rw [List.foldl_append, List.foldl_append, List.foldl_cons]
  congr 1
  simp [processFile, hself, hdef, hcust, htext, herr]

/-- C10: when no candidate survives filtering, the run still succeeds: the
in-memory document is empty, its UTF-8 byte length is zero, the post-write
byte-length integrity check passes against the zero-byte persisted file, and
the reported token estimate is 0. -/
theorem empty_run_succeeds (a : AggArgs) (files : List FileEntry)
    (persist : Str → Nat)
    (hnone : ∀ f ∈ files, includedFile a f = false)
    (hfs : persist [] = 0) :
    (aggregate_files a files).output = [] ∧
    utf8Len (aggregate_files a files).output = 0 ∧
    runAggregate a files persist =
      Except.ok (aggregate_files a files, 0, some 0) := by
  have hfilter : files.filter (includedFile a) = [] := by
    rw [List.filter_eq_nil_iff]
    intro f hf
    simp [hnone f hf]
  have hout : (aggregate_files a files).output = [] := by
    obtain ⟨_, _, _, _, _, h6⟩ := aggregate_loop_spec a files initState
    rw [aggregate_files, h6, hfilter]
    rfl
  have hlen : utf8Len (aggregate_files a files).output = 0 := by
    rw [hout]
    rfl
  refine ⟨hout, hlen, ?_⟩
  have hu : utf8Len ([] : Str) = 0 := rfl
  rw [runAggregate]
  simp only [hout, hfs, hu]
  rw [if_neg (by simp), if_neg (by simp [MAX_FILE_SIZE])]
  rw [show estimate_token_count [] = 0 from by rw [estimate_token_count]]

/-- Witness for C10 at the empty candidate list against a faithful
zero-byte persistence. -/
theorem empty_run_succeeds_witness :
    (aggregate_files (mkAggArgs "/o".data [] [] true false) []).output = [] ∧
    utf8Len (aggregate_files (mkAggArgs "/o".data [] [] true false) []).output = 0 ∧
    runAggregate (mkAggArgs "/o".data [] [] true false) [] utf8Len =
      Except.ok (aggregate_files (mkAggArgs "/o".data [] [] true false) [], 0,
        some 0) :=
  empty_run_succeeds (mkAggArgs "/o".data [] [] true false) [] utf8Len
    (by simp) (by rfl)

theorem isPrefixOf_iff_exists (x : Str) :
    ∀ y : Str, (x.isPrefixOf y = true ↔ ∃ rest, y = x ++ rest) := by
  induction x with
  | nil =>
    intro y
    simp [List.isPrefixOf]
  | cons a t ih =>
    intro y
    cases y with
    | nil => simp [List.isPrefixOf]
    | cons b u =>
      simp only [List.isPrefixOf, Bool.and_eq_true, beq_iff_eq, ih u,
        List.cons_append, List.cons.injEq]
      constructor
      · rintro ⟨rfl, rest, rfl⟩
        exact ⟨rest, rfl, rfl⟩
      · rintro ⟨rest, rfl, rfl⟩
        exact ⟨rfl, rest, rfl⟩

/-- C8: `is_text_file` returns true exactly when the sniffed MIME type
starts with `text/` or is exactly `application/json` or `application/xml`;
and when MIME sniffing raises (modelled by `none`) it returns false — the
file is treated as non-text — instead of propagating the exception. -/
theorem is_text_file_spec :
    (∀ mime : Str, is_text_file (some mime) = true ↔
      ((∃ rest, mime = "text/".data ++ rest) ∨
        mime = "application/json".data ∨ mime = "application/xml".data)) ∧
    is_text_file none = false := by
  constructor
  · intro mime
    simp [is_text_file]
    constructor
    · rintro (⟨rest, hr⟩ | h | h)
      · exact Or.inl ⟨rest, hr.symm⟩
      · exact Or.inr (Or.inl h)
      · exact Or.inr (Or.inr h)
    · rintro (⟨rest, hr⟩ | h | h)
      · exact Or.inl ⟨rest, hr.symm⟩
      · exact Or.inr (Or.inl h)
      · exact Or.inr (Or.inr h)
  · rfl

def sampleArgs : AggArgs := mkAggArgs "/out/aidigest".data [] [] false false

def sampleA : FileEntry :=
  ⟨"/w/a.txt".data, "a.txt".data, some "text/plain".data, some "A".data⟩

def sampleB : FileEntry :=
  ⟨"/w/b.txt".data, "b.txt".data, some "text/plain".data, some "B".data⟩

/-- C1 (code bug evidence): the output document of the candidate loop
depends on the iteration order of the candidate set: the same two surviving
files visited in the two possible orders produce different documents.  The
source iterates a Python `set` of paths without any sort, and string-set
iteration order varies between interpreter runs under hash randomization, so
the loop is not sorted by relative path and two runs over a fixed file set
need not be byte-identical. -/
theorem aggregate_output_depends_on_iteration_order :
    (aggregate_files sampleArgs [sampleA, sampleB]).output ≠
      (aggregate_files sampleArgs [sampleB, sampleA]).output := by
  decide

def sampleErr : FileEntry :=
  ⟨"/w/e.txt".data, "e.txt".data, some "text/plain".data, none⟩

/-- Witness for C7: a text file with a read error between two good files
leaves the run exactly as if it were absent. -/
theorem read_error_file_skipped_witness :
    aggregate_files sampleArgs ([sampleA] ++ sampleErr :: [sampleB]) =
      aggregate_files sampleArgs ([sampleA] ++ [sampleB]) :=
  read_error_file_skipped sampleArgs [sampleA] [sampleB] sampleErr
    (by decide) (by decide) (by decide) (by decide) rfl

/-- Witness for C4: a run that returns normally did persist exactly the
in-memory UTF-8 byte length. -/
theorem run_integrity_witness :
    (fun _ : Str => (0 : Nat)) (aggregate_files sampleArgs []).output =
      utf8Len (aggregate_files sampleArgs []).output :=
  (run_integrity sampleArgs [] (fun _ => 0)).2
    (aggregate_files sampleArgs [], 0, some 0)
    (by
      rw [runAggregate]
      rw [if_neg (by simp [show utf8Len ([] : Str) = 0 from rfl,
        show (aggregate_files sampleArgs []).output = [] from rfl])]
      rw [if_neg (by simp [MAX_FILE_SIZE])]
      rw [show (aggregate_files sampleArgs []).output = [] from rfl,
        show estimate_token_count [] = 0 from by rw [estimate_token_count]])

end Aidigest
